import Mathlib

/-!
# Verification of the claude-session-manager history-parsing core

A shallow embedding, in Lean 4, of the session discovery / parsing / naming /
search pipeline of `src/historyParser.ts` (class `HistoryParser`), together
with theorems settling the frozen claims about it.

Modelling conventions:

* JavaScript strings are embedded as `List Char` (`Str`).  The JS string
  primitives the source uses (`split`, `trim`, `toLowerCase`, `includes`,
  `indexOf`, `slice`, `replace`, `startsWith`, `endsWith`, `join`) are
  defined below, character-by-character, with JS semantics.
* The filesystem seen by `fs.existsSync` during path decoding is a list of
  existing path strings (`fsys : List Str`); `existsSync p` is membership.
* Paths built by the decoder via `path.join`/`path.dirname`/`path.basename`
  are represented by their segment lists (`List Str`); `renderPath` gives the
  string form (`"/" ++ segments joined by "/"`).  On the canonical absolute
  paths the decoder builds (assembled from `"/"` by `path.join` with
  non-`"/"`, non-`"."`/`".."` tokens), `path.join` is appending a non-empty
  segment (and the identity on the empty segment), `path.dirname` is
  `dropLast` and `path.basename` is the last segment — exactly what the
  definitions below do.
* The session-file corpus under `~/.claude/projects` is a list of project
  directories, each a directory name plus a list of files; a file is a name
  plus `Option FileData` where `none` models a file whose `statSync`/
  `readFileSync` throws (corrupt/unreadable) and `FileData` carries the text
  content and the `birthtime`/`mtime` stat fallbacks.  A missing corpus root
  (`fs.existsSync(projectsPath)` false) is corpus `none`.
* `JSON.parse` of one transcript line is abstracted as a parameter
  `jp : Str → Option SessionEntry` (`none` = the line throws); the
  `SessionEntry` structure carries exactly the fields the source reads.
* Timestamps (`new Date(entry.timestamp)` values, `birthtime`, `mtime`) are
  `Nat` epoch values; `Date` comparison is `Nat` comparison.
* All definitions are structurally recursive total functions, so Lean's
  totality is itself the termination guarantee for the decode search.
-/

namespace SessionMgr

/-- A JavaScript string, embedded as its list of characters. -/
abbrev Str := List Char

/-- Shorthand turning a Lean string literal into the embedded form. -/
def str (s : String) : Str := s.toList

/-! ## JS string primitives -/

/-- `String.prototype.toLowerCase`, restricted to ASCII (every string the
source lowercases is ASCII). -/
def jsToLowerChar (c : Char) : Char :=
  if 'A' ≤ c ∧ c ≤ 'Z' then Char.ofNat (c.toNat + 32) else c

/-- `s.toLowerCase()`. -/
def jsToLower (s : Str) : Str := s.map jsToLowerChar

/-- `s.split(sep)` for a one-character separator: `"".split(sep) = [""]`,
separators at the ends produce empty fields. -/
def jsSplit (sep : Char) : Str → List Str
  | [] => [[]]
  | c :: cs =>
    let r := jsSplit sep cs
    if c = sep then [] :: r
    else
      match r with
      | [] => [[c]]
      | h :: t => (c :: h) :: t

/-- The whitespace characters relevant to `String.prototype.trim` here. -/
def isWsChar (c : Char) : Bool :=
  c = ' ' ∨ c = '\t' ∨ c = '\n' ∨ c = '\r'

/-- `s.trim()`. -/
def jsTrim (s : Str) : Str :=
  ((s.dropWhile isWsChar).reverse.dropWhile isWsChar).reverse

/-- `s.indexOf(needle)` as an `Option`: `some i` is the least index at which
`needle` occurs, `none` stands for JS's `-1`.  `jsIndexOf needle "" = some 0`
exactly when `needle` is empty, matching `"".indexOf("") === 0`. -/
def jsIndexOf (needle : Str) : Str → Option Nat
  | [] => if needle.isPrefixOf ([] : Str) then some 0 else none
  | c :: t =>
    if needle.isPrefixOf (c :: t) then some 0
    else (jsIndexOf needle t).map (· + 1)

/-- `hay.includes(needle)`. -/
def jsIncludes (needle hay : Str) : Bool := (jsIndexOf needle hay).isSome

/-- `s.replace(/c/g, d)` for single characters. -/
def jsReplaceAllChar (a b : Char) (s : Str) : Str :=
  s.map fun c => if c = a then b else c

/-- `s.replace(pat, rep)` with a string pattern: replaces the first
occurrence only. -/
def jsReplaceFirst (pat rep : Str) (s : Str) : Str :=
  match jsIndexOf pat s with
  | none => s
  | some i => s.take i ++ rep ++ s.drop (i + pat.length)

/-- `s.startsWith(pre)`. -/
def jsStartsWith (pre s : Str) : Bool := pre.isPrefixOf s

/-- `s.endsWith(suf)`. -/
def jsEndsWith (suf s : Str) : Bool := suf.isSuffixOf s

/-- `parts.join(sep)` for a one-character separator (JS `Array.prototype.join`
keeps empty fields). -/
def joinSep (sep : Char) : List Str → Str
  | [] => []
  | [s] => s
  | s :: rest => s ++ sep :: joinSep sep rest

/-- Truthiness of an optional JS string: `undefined` and `""` are falsy. -/
def truthyOptStr : Option Str → Bool
  | none => false
  | some s => s ≠ []

/-! ## PathCodec (`encodeProjectPath` / `decodeProjectPath` / `findValidPath`)

`src/historyParser.ts` lines 91–150. -/

/-- The string form of a segment-list path: `renderPath ["a","b"] = "/a/b"`,
`renderPath [] = "/"`. -/
def renderPath (segs : List Str) : Str := '/' :: joinSep '/' segs

/-- `fs.existsSync` against the modelled filesystem. -/
def existsSync (fsys : List Str) (p : Str) : Bool := fsys.contains p

/-- The dash-continuation hypothesis of the decoder (lines 130–139):
`path.join(path.dirname(cur), path.basename(cur) ++ "-" ++ part)`. -/
def dashJoin (curr : List Str) (part : Str) : List Str :=
  curr.dropLast ++ [curr.getLastD [] ++ '-' :: part]

/-- The new-segment hypothesis (line 124): `path.join(cur, part)`; `path.join`
ignores an empty extra component. -/
def newComponent (curr : List Str) (part : Str) : List Str :=
  if part = [] then curr else curr ++ [part]

/-- `findValidPath(parts, index, currentPath)` (lines 114–143): depth-first
search over the two interpretations of each remaining token, trying the
new-segment hypothesis before the dash-continuation one (the latter only when
`currentPath !== '/'`, i.e. `curr ≠ []`), and checking `fs.existsSync` only
once every token is consumed. -/
def findValidPath (fsys : List Str) : List Str → List Str → Option (List Str)
  | [], curr => if existsSync fsys (renderPath curr) then some curr else none
  | part :: rest, curr =>
    match findValidPath fsys rest (newComponent curr part) with
    | some r => some r
    | none =>
      if curr ≠ [] then findValidPath fsys rest (dashJoin curr part)
      else none

/-- The same recursion, instrumented to record (in order) every path string
passed to `fs.existsSync` — existence is queried exactly at the base case, and
the dash branch is explored exactly when the new-segment branch failed. -/
def existsChecks (fsys : List Str) : List Str → List Str → List Str
  | [], curr => [renderPath curr]
  | part :: rest, curr =>
    let c₁ := existsChecks fsys rest (newComponent curr part)
    match findValidPath fsys rest (newComponent curr part) with
    | some _ => c₁
    | none =>
      if curr ≠ [] then c₁ ++ existsChecks fsys rest (dashJoin curr part)
      else c₁

/-- The complete interpretations of a token list extending `curr`, in the
depth-first order the decoder visits them (new-segment before
dash-continuation).  Pure: no filesystem access. -/
def interps : List Str → List Str → List (List Str)
  | [], curr => [curr]
  | part :: rest, curr =>
    interps rest (newComponent curr part) ++
      (if curr ≠ [] then interps rest (dashJoin curr part) else [])

/-- `encodeProjectPath` (lines 148–150): replace every `/` with `-`. -/
def encodeProjectPath (p : Str) : Str := jsReplaceAllChar '/' '-' p

/-- The token list of an encoded name: strip one leading dash (the source's
regex replace of a leading dash by the empty string), then split on `-`. -/
def tokensOf (encoded : Str) : List Str :=
  jsSplit '-' (match encoded with
    | '-' :: rest => rest
    | e => e)

/-- `decodeProjectPath` (lines 101–109): run the search from `/`; on failure
fall back to `'/' + parts.join('/')`. -/
def decodeProjectPath (fsys : List Str) (encoded : Str) : Str :=
  let parts := tokensOf encoded
  match findValidPath fsys parts [] with
  | some p => renderPath p
  | none => '/' :: joinSep '/' parts

/-! ## PathCodec lemmas -/

theorem interps_ne_nil (parts curr : List Str) : interps parts curr ≠ [] := by
  induction parts generalizing curr with
  | nil => simp [interps]
  | cons part rest ih =>
    simp only [interps]
    intro h
    rcases List.append_eq_nil.mp h with ⟨h₁, -⟩
    exact ih _ h₁

/-- The first complete interpretation in depth-first order takes every
non-empty token as a fresh segment. -/
theorem interps_head (parts curr : List Str) :
    (interps parts curr).head? = some (curr ++ parts.filter (· ≠ [])) := by
  induction parts generalizing curr with
  | nil => simp [interps]
  | cons part rest ih =>
    simp only [interps, List.head?_append_of_ne_nil _ (interps_ne_nil rest _)]
    rw [ih]
    by_cases hp : part = []
    · simp [newComponent, hp]
    · simp [newComponent, hp, List.filter_cons]

/-- `findValidPath` returns the first complete interpretation, in depth-first
order, that exists on the filesystem: existence is consulted only at complete
candidates. -/
theorem findValidPath_eq_find? (fsys : List Str) (parts curr : List Str) :
    findValidPath fsys parts curr =
      (interps parts curr).find? (fun p => existsSync fsys (renderPath p)) := by
  induction parts generalizing curr with
  | nil =>
    simp only [findValidPath, interps, List.find?]
    by_cases h : existsSync fsys (renderPath curr) <;> simp [h]
  | cons part rest ih =>
    simp only [findValidPath, interps, List.find?_append, ih]
    cases hfind : (interps rest (newComponent curr part)).find?
        (fun p => existsSync fsys (renderPath p)) with
    | some r => simp [Option.or]
    | none =>
      by_cases hc : curr ≠ [] <;> simp [hc, Option.or]

/-- Every path string the search hands to `fs.existsSync` is (the rendering
of) a complete interpretation: no prefix of the token list is ever checked. -/
theorem existsChecks_subset_interps (fsys : List Str) (parts curr : List Str) :
    ∀ q ∈ existsChecks fsys parts curr, q ∈ (interps parts curr).map renderPath := by
  induction parts generalizing curr with
  | nil => simp [existsChecks, interps]
  | cons part rest ih =>
    intro q hq
    simp only [existsChecks] at hq
    simp only [interps, List.map_append, List.mem_append]
    cases hfind : findValidPath fsys rest (newComponent curr part) with
    | some r =>
      rw [hfind] at hq
      exact Or.inl (ih _ _ hq)
    | none =>
      rw [hfind] at hq
      by_cases hc : curr ≠ []
      · rw [if_pos hc] at hq
        rcases List.mem_append.mp hq with h | h
        · exact Or.inl (ih _ _ h)
        · refine Or.inr ?_
          rw [if_pos hc]
          exact ih _ _ h
      · rw [if_neg hc] at hq
        exact Or.inl (ih _ _ hq)

theorem find?_of_head? {α : Type} {l : List α} {p : α → Bool} {h : α}
    (hh : l.head? = some h) (hp : p h = true) : l.find? p = some h := by
  cases l with
  | nil => simp at hh
  | cons a t =>
    simp only [List.head?_cons, Option.some.injEq] at hh
    subst hh
    simp [List.find?, hp]

/-! ## String lemmas for the encode/decode round trip -/

theorem map_replace_of_not_mem {s : Str} (h : '/' ∉ s) :
    s.map (fun c => if c = '/' then '-' else c) = s := by
  induction s with
  | nil => rfl
  | cons c cs ih =>
    have hc : c ≠ '/' := fun he => h (by simp [he])
    have hcs : '/' ∉ cs := fun hm => h (by simp [hm])
    simp [hc, ih hcs]

theorem map_replace_joinSep {segs : List Str} (h : ∀ s ∈ segs, '/' ∉ s) :
    (joinSep '/' segs).map (fun c => if c = '/' then '-' else c) =
      joinSep '-' segs := by
  induction segs with
  | nil => simp [joinSep]
  | cons s rest ih =>
    cases rest with
    | nil =>
      simp only [joinSep]
      exact map_replace_of_not_mem (h s (by simp))
    | cons s' rest' =>
      simp only [joinSep, List.map_append, List.map_cons]
      rw [map_replace_of_not_mem (h s (by simp)),
        ih (fun x hx => h x (by simp [hx]))]
      simp

theorem jsSplit_of_not_mem {sep : Char} {s : Str} (h : sep ∉ s) :
    jsSplit sep s = [s] := by
  induction s with
  | nil => rfl
  | cons c cs ih =>
    have hc : c ≠ sep := fun he => h (by simp [he])
    have hcs : sep ∉ cs := fun hm => h (by simp [hm])
    simp only [jsSplit, hc, if_false]
    rw [ih hcs]

theorem jsSplit_append_sep {sep : Char} {s rest : Str} (h : sep ∉ s) :
    jsSplit sep (s ++ sep :: rest) = s :: jsSplit sep rest := by
  induction s with
  | nil => simp [jsSplit]
  | cons c cs ih =>
    have hc : c ≠ sep := fun he => h (by simp [he])
    have hcs : sep ∉ cs := fun hm => h (by simp [hm])
    simp only [List.cons_append, jsSplit, hc, if_false, List.append_eq]
    rw [ih hcs]

theorem jsSplit_joinSep {sep : Char} {segs : List Str} (hne : segs ≠ [])
    (h : ∀ s ∈ segs, sep ∉ s) : jsSplit sep (joinSep sep segs) = segs := by
  induction segs with
  | nil => exact absurd rfl hne
  | cons s rest ih =>
    cases rest with
    | nil => simpa [joinSep] using jsSplit_of_not_mem (h s (by simp))
    | cons s' rest' =>
      simp only [joinSep]
      rw [jsSplit_append_sep (h s (by simp)),
        ih (by simp) (fun x hx => h x (by simp [hx]))]

/-- Tokenizing the encoding of a rendered path whose segments avoid `/` and
`-` recovers exactly the segments. -/
theorem tokensOf_encode_render {segs : List Str} (hne : segs ≠ [])
    (h : ∀ s ∈ segs, '/' ∉ s ∧ '-' ∉ s) :
    tokensOf (encodeProjectPath (renderPath segs)) = segs := by
  have henc : encodeProjectPath (renderPath segs) = '-' :: joinSep '-' segs := by
    simp only [encodeProjectPath, renderPath, jsReplaceAllChar, List.map_cons,
      if_pos rfl, if_true, eq_self_iff_true]
    rw [map_replace_joinSep (fun s hs => (h s hs).1)]
  rw [henc]
  show jsSplit '-' (joinSep '-' segs) = segs
  exact jsSplit_joinSep hne (fun s hs => (h s hs).2)

theorem findValidPath_first_leaf {fsys : List Str} (parts curr : List Str)
    (hex : existsSync fsys (renderPath (curr ++ parts.filter (· ≠ []))) = true) :
    findValidPath fsys parts curr = some (curr ++ parts.filter (· ≠ [])) := by
  rw [findValidPath_eq_find?]
  exact find?_of_head? (interps_head parts curr) hex

/-! ## Claim theorems: PathCodec -/

/-- C1 (counterexample): with both `/a-b` and `/a/b` existing, the decoder
returns `/a/b` for the encoding of the existing path `/a-b`, because the
new-segment hypothesis is tried first — so `decode (encode p) = p` fails for
an existing `p`. -/
theorem decode_encode_not_id_cx :
    (str "/a-b") ∈ ([str "/a-b", str "/a/b"] : List Str) ∧
      decodeProjectPath [str "/a-b", str "/a/b"]
          (encodeProjectPath (str "/a-b")) = str "/a/b" ∧
      str "/a/b" ≠ str "/a-b" := by
  refine ⟨by decide, by decide, by decide⟩

/-- C1 (amended): `decode (encode p) = p` holds for an existing path `p`
whenever `p` is the first fully-validated candidate of the decode search; in
particular whenever none of `p`'s segment names contains a dash (then `p`
itself is the very first candidate in depth-first order). -/
theorem decode_encode_dashfree_roundtrip (fsys : List Str) (segs : List Str)
    (hne : segs ≠ []) (hsegs : ∀ s ∈ segs, s ≠ [] ∧ '/' ∉ s ∧ '-' ∉ s)
    (hex : renderPath segs ∈ fsys) :
    decodeProjectPath fsys (encodeProjectPath (renderPath segs)) =
      renderPath segs := by
  have htok : tokensOf (encodeProjectPath (renderPath segs)) = segs :=
    tokensOf_encode_render hne (fun s hs => (hsegs s hs).2)
  have hfilter : segs.filter (· ≠ []) = segs := by
    rw [List.filter_eq_self]
    intro s hs
    simpa using (hsegs s hs).1
  have hfound : findValidPath fsys segs [] = some segs := by
    have := @findValidPath_first_leaf fsys segs []
    simp only [List.nil_append, hfilter] at this
    refine this ?_
    simpa [existsSync, List.contains, List.elem_iff] using hex
  simp only [decodeProjectPath, htok, hfound]

/-- C1 (witness): the round trip at the concrete existing path `/home/seth`. -/
theorem decode_encode_dashfree_roundtrip_witness :
    decodeProjectPath [str "/home/seth"]
        (encodeProjectPath (renderPath [str "home", str "seth"])) =
      renderPath [str "home", str "seth"] :=
  decode_encode_dashfree_roundtrip [str "/home/seth"]
    [str "home", str "seth"] (by decide) (by decide) (by decide)

/-- C3 (counterexample): with filesystem `{/a-b}`, the search hands `/a/b` to
`fs.existsSync` even though its prefix `/a` does not exist — the branch
through the non-existent prefix `/a` is extended to a full candidate, not
pruned — and still also finds `/a-b`. -/
theorem findValidPath_no_prefix_pruning_cx :
    (str "/a/b") ∈ existsChecks [str "/a-b"] [str "a", str "b"] [] ∧
      existsSync [str "/a-b"] (str "/a") = false ∧
      findValidPath [str "/a-b"] [str "a", str "b"] [] = some [str "a-b"] := by
  refine ⟨by decide, by decide, by decide⟩

/-- C3 (amended): the search checks filesystem existence only once all tokens
are consumed — every `fs.existsSync` query is on a complete interpretation,
no branch is pruned at a prefix, and the result is the first existing
complete interpretation in depth-first order. -/
theorem findValidPath_checks_only_complete (fsys : List Str)
    (parts curr : List Str) :
    findValidPath fsys parts curr =
      (interps parts curr).find? (fun p => existsSync fsys (renderPath p)) ∧
    ∀ q ∈ existsChecks fsys parts curr,
      q ∈ (interps parts curr).map renderPath :=
  ⟨findValidPath_eq_find? fsys parts curr,
    existsChecks_subset_interps fsys parts curr⟩

/-- C3 (witness): the complete-candidates property applied at the concrete
search of the counterexample's input. -/
theorem findValidPath_checks_only_complete_witness :
    (str "/a/b") ∈ existsChecks [str "/a-b"] [str "a", str "b"] [] ∧
      (str "/a/b") ∈
        (interps [str "a", str "b"] []).map renderPath :=
  ⟨by decide,
    (findValidPath_checks_only_complete [str "/a-b"] [str "a", str "b"] []).2
      (str "/a/b") (by decide)⟩

/-- C8: the decode search is a total structurally-recursive function (it
terminates on every input by construction), and whenever no complete
interpretation of the encoded string exists on the filesystem it returns the
naive fallback `'/' + parts.join('/')` — never a failure. -/
theorem decodeProjectPath_total_fallback (fsys : List Str) (encoded : Str)
    (h : ((interps (tokensOf encoded) []).all
        fun p => !existsSync fsys (renderPath p)) = true) :
    decodeProjectPath fsys encoded = '/' :: joinSep '/' (tokensOf encoded) := by
  have hnone : findValidPath fsys (tokensOf encoded) [] = none := by
    rw [findValidPath_eq_find?, List.find?_eq_none]
    intro p hp
    have := List.all_eq_true.mp h p hp
    simp only [Bool.not_eq_true'] at this
    simp [this]
  simp only [decodeProjectPath, hnone]

/-- C8 (witness): with an empty filesystem, decoding `-x-y` yields the naive
fallback `/x/y`. -/
theorem decodeProjectPath_total_fallback_witness :
    decodeProjectPath [] (str "-x-y") = '/' :: joinSep '/' (tokensOf (str "-x-y")) :=
  decodeProjectPath_total_fallback [] (str "-x-y") (by decide)

/-! ## Transcript entries (`SessionEntry`, lines 15–35)

`JSON.parse` of one line is abstracted as `jp : Str → Option SessionEntry`
(`none` = the line throws and is skipped by the `catch`).  The structure
carries exactly the fields the source reads; `timestamp` is the parsed epoch
value of the entry's timestamp string. -/

/-- One block of a structured message body (`ContentBlock`). -/
structure ContentBlock where
  type : Str
  text : Option Str := none
  name : Option Str := none
  input : List (Str × Str) := []
deriving DecidableEq

/-- A message body: `content` is a string, an array of blocks, or some other
JSON value (the source's ternary falls back to `''` on the latter). -/
inductive ContentVal where
  | plain (s : Str)
  | blocks (bs : List ContentBlock)
  | other
deriving DecidableEq

structure MessageBody where
  role : Str
  content : ContentVal
deriving DecidableEq

structure SessionEntry where
  type : Str
  summary : Option Str := none
  timestamp : Option Nat := none
  cwd : Option Str := none
  message : Option MessageBody := none
  isSidechain : Bool := false
deriving DecidableEq

/-- The flattening of a message body used for the warmup check (lines
210–215): a string is itself, an array is the concatenation of every block's
`text || ''`, anything else is `''`. -/
def flattenContent : ContentVal → Str
  | .plain s => s
  | .blocks bs => (bs.map fun b => b.text.getD []).flatten
  | .other => []

/-- The aggregated `ClaudeSession` value (the fields of `src/types`' session
record that `parseSessionFile` fills in). -/
structure ClaudeSession where
  id : Str
  projectPath : Str
  startTime : Nat
  lastActivityTime : Nat
  messageCount : Nat
  isActive : Bool
  autoGeneratedName : Option Str
deriving DecidableEq

/-! ## `parseSessionFile` (lines 155–257) -/

/-- The mutable locals of `parseSessionFile`'s line loop (lines 170–177). -/
structure ParseState where
  summary : Option Str := none
  messageCount : Nat := 0
  firstTimestamp : Option Nat := none
  lastTimestamp : Option Nat := none
  cwd : Option Str := none
  firstUserMessage : Option Str := none
  hasRealContent : Bool := false
  isSidechain : Bool := false
deriving DecidableEq

/-- One iteration of the loop body (lines 179–231) on a successfully parsed
entry.  Each field update mirrors one statement of the source; the statements
are independent (each reads only fields it alone writes), so they are given
field-wise.  Note the `!firstUserMessage` truthiness test: an already-stored
*empty* first user message is falsy and can be overwritten. -/
def stepEntry (st : ParseState) (e : SessionEntry) : ParseState where
  isSidechain := st.isSidechain || e.isSidechain
  summary :=
    if e.type = str "summary" ∧ truthyOptStr e.summary then e.summary
    else st.summary
  firstTimestamp :=
    match e.timestamp, st.firstTimestamp with
    | some t, none => some t
    | some t, some f => if t < f then some t else some f
    | none, f => f
  lastTimestamp :=
    match e.timestamp, st.lastTimestamp with
    | some t, none => some t
    | some t, some l => if l < t then some t else some l
    | none, l => l
  messageCount :=
    if e.type = str "user" ∨ e.type = str "assistant" then st.messageCount + 1
    else st.messageCount
  firstUserMessage :=
    if e.type = str "user" ∧ truthyOptStr st.firstUserMessage = false then
      match e.message with
      | some m => some (jsTrim (flattenContent m.content))
      | none => st.firstUserMessage
    else st.firstUserMessage
  hasRealContent := st.hasRealContent || e.type = str "assistant"
  cwd :=
    match st.cwd with
    | some c => some c
    | none =>
      match e.cwd with
      | some c => if c ≠ [] then some c else none
      | none => none

/-- One loop iteration on a raw line: `JSON.parse` failure is caught and the
line skipped (lines 228–230). -/
def parseStep (jp : Str → Option SessionEntry) (st : ParseState) (line : Str) :
    ParseState :=
  match jp line with
  | none => st
  | some e => stepEntry st e

/-- `content.trim().split('\n').filter(line => line.trim())` (line 164). -/
def linesOf (content : Str) : List Str :=
  (jsSplit '\n' (jsTrim content)).filter fun l => jsTrim l ≠ []

/-- The readable part of a session file: its text plus the `statSync`
fallbacks. -/
structure FileData where
  content : Str
  birthtime : Nat
  mtime : Nat
deriving DecidableEq

/-- The final loop state of `parseSessionFile` on a file's lines. -/
def parseFold (jp : Str → Option SessionEntry) (content : Str) : ParseState :=
  (linesOf content).foldl (parseStep jp) {}

/-- `parseSessionFile` (lines 155–257): `stats.size` is the byte length of
the content, so the size-zero check is `content = []`.  The source's local
`lines` and the loop's final state are written out via `linesOf`/`parseFold`. -/
def parseSessionFile (jp : Str → Option SessionEntry) (fd : FileData)
    (sessionId projectPath : Str) : Option ClaudeSession :=
  if fd.content.length = 0 then none
  else if (linesOf fd.content).isEmpty then none
  else if (parseFold jp fd.content).firstUserMessage = some (str "Warmup") then none
  else if (parseFold jp fd.content).isSidechain then none
  else if (parseFold jp fd.content).hasRealContent = false ∧
      (parseFold jp fd.content).messageCount < 2 then none
  else some {
    id := sessionId
    projectPath := (parseFold jp fd.content).cwd.getD projectPath
    startTime := (parseFold jp fd.content).firstTimestamp.getD fd.birthtime
    lastActivityTime := (parseFold jp fd.content).lastTimestamp.getD fd.mtime
    messageCount := (parseFold jp fd.content).messageCount
    isActive := false
    autoGeneratedName := (parseFold jp fd.content).summary }

/-- The successfully parsed entries of a file's lines. -/
def entriesOf (jp : Str → Option SessionEntry) (content : Str) :
    List SessionEntry :=
  (linesOf content).filterMap jp

/-- The first user message of an entry sequence whose flattened, trimmed text
is non-empty — this, not the literal first user message, is what the loop's
`firstUserMessage` variable holds at the end (an empty stored text is falsy
and gets overwritten by a later user message). -/
def firstNonemptyUserText : List SessionEntry → Option Str
  | [] => none
  | e :: es =>
    match e.message with
    | some m =>
      if e.type = str "user" ∧ jsTrim (flattenContent m.content) ≠ [] then
        some (jsTrim (flattenContent m.content))
      else firstNonemptyUserText es
    | none => firstNonemptyUserText es

/-- The literal first user message text (trimmed) of an entry sequence — the
claim's reading of "first user-message text". -/
def firstUserText : List SessionEntry → Option Str
  | [] => none
  | e :: es =>
    match e.message with
    | some m =>
      if e.type = str "user" then some (jsTrim (flattenContent m.content))
      else firstUserText es
    | none => firstUserText es

/-- `messageCount` over an entry sequence. -/
def countMessages (es : List SessionEntry) : Nat :=
  es.countP fun e => decide (e.type = str "user" ∨ e.type = str "assistant")

/-! ## `parseSessionFile` loop lemmas

The loop body's statements are field-independent, so the fold over the raw
lines decomposes into per-field characterizations over the successfully
parsed entries. -/

theorem foldl_parseStep_eq (jp : Str → Option SessionEntry) (st : ParseState) :
    ∀ lines : List Str,
      lines.foldl (parseStep jp) st = (lines.filterMap jp).foldl stepEntry st := by
  intro lines
  induction lines generalizing st with
  | nil => rfl
  | cons l ls ih =>
    rw [List.foldl_cons, ih]
    cases h : jp l <;> simp [parseStep, h]

theorem fold_isSidechain (es : List SessionEntry) (st : ParseState) :
    (es.foldl stepEntry st).isSidechain =
      (st.isSidechain || es.any fun e => e.isSidechain) := by
  induction es generalizing st with
  | nil => simp
  | cons e es ih =>
    rw [List.foldl_cons, ih]
    simp [stepEntry, Bool.or_assoc]

theorem fold_hasRealContent (es : List SessionEntry) (st : ParseState) :
    (es.foldl stepEntry st).hasRealContent =
      (st.hasRealContent || es.any fun e => decide (e.type = str "assistant")) := by
  induction es generalizing st with
  | nil => simp
  | cons e es ih =>
    rw [List.foldl_cons, ih]
    simp [stepEntry, Bool.or_assoc]

theorem fold_messageCount (es : List SessionEntry) (st : ParseState) :
    (es.foldl stepEntry st).messageCount = st.messageCount + countMessages es := by
  induction es generalizing st with
  | nil => simp [countMessages]
  | cons e es ih =>
    rw [List.foldl_cons, ih]
    by_cases h : e.type = str "user" ∨ e.type = str "assistant"
    · simp only [countMessages, List.countP_cons, h]
      simp [stepEntry, h]
      omega
    · simp only [countMessages, List.countP_cons, h]
      simp [stepEntry, h]

theorem fold_fum_of_truthy (es : List SessionEntry) (st : ParseState)
    (h : truthyOptStr st.firstUserMessage = true) :
    (es.foldl stepEntry st).firstUserMessage = st.firstUserMessage := by
  induction es generalizing st with
  | nil => rfl
  | cons e es ih =>
    rw [List.foldl_cons]
    have hcond : ¬(e.type = str "user" ∧ truthyOptStr st.firstUserMessage = false) := by
      rintro ⟨-, hf⟩
      rw [h] at hf
      exact absurd hf (by decide)
    have hstep : (stepEntry st e).firstUserMessage = st.firstUserMessage := by
      simp [stepEntry, hcond]
    rw [ih _ (by rw [hstep, h]), hstep]

theorem fold_fum_eq_some_iff {W : Str} (hW : W ≠ []) (es : List SessionEntry)
    (st : ParseState) (h : truthyOptStr st.firstUserMessage = false) :
    ((es.foldl stepEntry st).firstUserMessage = some W) ↔
      firstNonemptyUserText es = some W := by
  induction es generalizing st with
  | nil =>
    simp only [List.foldl_nil, firstNonemptyUserText]
    cases hf : st.firstUserMessage with
    | none => simp
    | some s =>
      have hs : s = [] := by
        by_contra hne
        have h' := h
        simp only [hf, truthyOptStr] at h'
        simp [hne] at h'
      subst hs
      simp [hf, Ne.symm hW]
  | cons e es ih =>
    rw [List.foldl_cons]
    by_cases hu : e.type = str "user"
    · cases hm : e.message with
      | none =>
        have hstep : (stepEntry st e).firstUserMessage = st.firstUserMessage := by
          simp [stepEntry, hu, h, hm]
        rw [ih _ (by rw [hstep, h])]
        simp [firstNonemptyUserText, hm, hstep]
      | some m =>
        have hstep : (stepEntry st e).firstUserMessage =
            some (jsTrim (flattenContent m.content)) := by
          simp [stepEntry, hu, h, hm]
        by_cases ht : jsTrim (flattenContent m.content) = []
        · rw [ih _ (by rw [hstep]; simp [truthyOptStr, ht])]
          simp [firstNonemptyUserText, hm, hu, ht]
        · rw [fold_fum_of_truthy _ _ (by rw [hstep]; simp [truthyOptStr, ht]), hstep]
          simp [firstNonemptyUserText, hm, hu, ht]
    · have hstep : (stepEntry st e).firstUserMessage = st.firstUserMessage := by
        simp [stepEntry, hu]
      rw [ih _ (by rw [hstep, h])]
      cases hm : e.message <;> simp [firstNonemptyUserText, hm, hu, hstep]

/-! ## Claim theorems: `parseSessionFile` exclusion rules -/

/-- The JSON records behind the counterexample's three lines: a user message
with empty string content, a user message `"Warmup"`, an assistant message. -/
def cxEntryEmptyUser : SessionEntry :=
  { type := str "user",
    message := some { role := str "user", content := .plain [] } }

def cxEntryWarmupUser : SessionEntry :=
  { type := str "user",
    message := some { role := str "user", content := .plain (str "Warmup") } }

def cxEntryAssistant : SessionEntry :=
  { type := str "assistant",
    message := some { role := str "assistant", content := .plain (str "done") } }

/-- A `JSON.parse` oracle for the counterexample's file: the line texts stand
for the one-line JSON records above (their exact JSON spelling is irrelevant
to the parser model, which only sees the parsed entries). -/
def cxJp : Str → Option SessionEntry := fun l =>
  if l = str "u1" then some cxEntryEmptyUser
  else if l = str "u2" then some cxEntryWarmupUser
  else if l = str "a1" then some cxEntryAssistant
  else none

def cxFile : FileData := { content := str "u1\nu2\na1", birthtime := 0, mtime := 0 }

/-- C2 (counterexample): a file whose literal first user message is the empty
string and whose second user message is `"Warmup"` is excluded by the code
(the empty stored text is falsy and gets overwritten), although none of the
claim's five exclusion conditions holds: the file is non-empty, has
non-empty lines, its trimmed *first* user-message text is `""` (not
`"Warmup"`), no entry is sidechain-flagged, and an assistant entry exists. -/
theorem parseSessionFile_warmup_falsy_cx :
    parseSessionFile cxJp cxFile (str "s") (str "/p") = none ∧
      firstUserText (entriesOf cxJp cxFile.content) = some [] ∧
      (some ([] : Str) ≠ some (str "Warmup")) ∧
      cxFile.content ≠ [] ∧
      linesOf cxFile.content ≠ [] ∧
      (entriesOf cxJp cxFile.content).all (fun e => !e.isSidechain) = true ∧
      (entriesOf cxJp cxFile.content).any
        (fun e => decide (e.type = str "assistant")) = true := by
  refine ⟨by decide, by decide, by decide, by decide, by decide, by decide, by decide⟩

/-- C2 (amended): `parseSessionFile` returns `null` exactly when one of the
ordered exclusion rules fires: (1) file size zero, (2) no non-empty lines,
(3) the first user message *with non-empty trimmed text* equals the warmup
sentinel `"Warmup"` (the loop's falsy check skips empty user messages), (4)
any entry carries `isSidechain`, (5) no assistant entry and fewer than two
user/assistant entries.  In particular a warmup file is excluded regardless
of message count, and a sidechain file regardless of content. -/
theorem parseSessionFile_excluded_iff (jp : Str → Option SessionEntry)
    (fd : FileData) (sid pp : Str) :
    parseSessionFile jp fd sid pp = none ↔
      fd.content = [] ∨
      linesOf fd.content = [] ∨
      firstNonemptyUserText (entriesOf jp fd.content) = some (str "Warmup") ∨
      (∃ e ∈ entriesOf jp fd.content, e.isSidechain = true) ∨
      ((¬∃ e ∈ entriesOf jp fd.content, e.type = str "assistant") ∧
        countMessages (entriesOf jp fd.content) < 2) := by
  by_cases h0 : fd.content = []
  · simp [parseSessionFile, h0]
  · have hlen : ¬fd.content.length = 0 := fun h => h0 (List.length_eq_zero.mp h)
    by_cases h1 : linesOf fd.content = []
    · simp [parseSessionFile, hlen, h1, h0]
    · have h1' : ¬(linesOf fd.content).isEmpty = true := by
        simpa [List.isEmpty_iff] using h1
      have hfold : parseFold jp fd.content =
          (entriesOf jp fd.content).foldl stepEntry {} :=
        foldl_parseStep_eq jp {} (linesOf fd.content)
      have key : parseSessionFile jp fd sid pp = none ↔
          ((entriesOf jp fd.content).foldl stepEntry {}).firstUserMessage
              = some (str "Warmup") ∨
            ((entriesOf jp fd.content).foldl stepEntry {}).isSidechain = true ∨
            (((entriesOf jp fd.content).foldl stepEntry {}).hasRealContent = false ∧
              ((entriesOf jp fd.content).foldl stepEntry {}).messageCount < 2) := by
        simp only [parseSessionFile, hfold]
        rw [if_neg hlen, if_neg h1']
        split_ifs with hA hB hC <;> simp_all
      have hfum := @fold_fum_eq_some_iff (str "Warmup") (by decide)
        (entriesOf jp fd.content) ({} : ParseState) rfl
      have hsideIff :
          ((entriesOf jp fd.content).foldl stepEntry {}).isSidechain = true ↔
            ∃ e ∈ entriesOf jp fd.content, e.isSidechain = true := by
        rw [fold_isSidechain]
        simp [List.any_eq_true]
      have hrcIff :
          (((entriesOf jp fd.content).foldl stepEntry {}).hasRealContent = false ∧
            ((entriesOf jp fd.content).foldl stepEntry {}).messageCount < 2) ↔
          ((¬∃ e ∈ entriesOf jp fd.content, e.type = str "assistant") ∧
            countMessages (entriesOf jp fd.content) < 2) := by
        rw [fold_hasRealContent, fold_messageCount]
        simp [List.any_eq_false]
      rw [key, hfum, hsideIff, hrcIff]
      simp [h0, h1]

/-! ## The corpus model and `getSessions` (lines 49–89) -/

/-- One file of a project directory: `data = none` models a file whose
`statSync`/`readFileSync` throws (corrupt/unreadable). -/
structure SessionFile where
  name : Str
  data : Option FileData
deriving DecidableEq

/-- One immediate child directory of the corpus root. -/
structure ProjectDir where
  name : Str
  files : List SessionFile
deriving DecidableEq

/-- The session-file filter of `getSessions` (lines 66–67): `.jsonl` files,
not hidden, not `agent-` prefixed. -/
def sessionFilesOf (d : ProjectDir) : List SessionFile :=
  d.files.filter fun f =>
    jsEndsWith (str ".jsonl") f.name && !jsStartsWith (str ".") f.name &&
      !jsStartsWith (str "agent-") f.name

/-- The sessions contributed by one project directory (lines 60–83): each
file is parsed under `try`/`catch`, so a file whose read throws
(`data = none`) is skipped and the loop continues. -/
def projectSessions (jp : Str → Option SessionEntry) (fsys : List Str)
    (d : ProjectDir) : List ClaudeSession :=
  (sessionFilesOf d).filterMap fun f =>
    match f.data with
    | none => none
    | some fd =>
      parseSessionFile jp fd (jsReplaceFirst (str ".jsonl") [] f.name)
        (decodeProjectPath fsys d.name)

/-- Insertion step of the stable descending sort: a session is placed before
the first already-sorted session with `lastActivityTime` not above its own,
so equal keys keep their enumeration order. -/
def insertDesc (a : ClaudeSession) : List ClaudeSession → List ClaudeSession
  | [] => [a]
  | b :: bs =>
    if b.lastActivityTime ≤ a.lastActivityTime then a :: b :: bs
    else b :: insertDesc a bs

/-- `sessions.sort((a, b) => b.lastActivityTime - a.lastActivityTime)`
(line 87): JS `Array.prototype.sort` is stable, and a stable sort by this
comparator is exactly this insertion sort (descending, ties in input
order). -/
def sortSessionsDesc : List ClaudeSession → List ClaudeSession
  | [] => []
  | x :: xs => insertDesc x (sortSessionsDesc xs)

/-- `getSessions(maxSessions)` (lines 49–89).  `corpus = none` models a
missing corpus root (`fs.existsSync(this.projectsPath)` false); hidden
project directories are skipped; the collected sessions are sorted by
descending `lastActivityTime` and truncated to `maxSessions`. -/
def getSessions (jp : Str → Option SessionEntry) (fsys : List Str)
    (corpus : Option (List ProjectDir)) (maxSessions : Nat) : List ClaudeSession :=
  match corpus with
  | none => []
  | some dirs =>
    (sortSessionsDesc
        ((dirs.filter fun d => !jsStartsWith (str ".") d.name).flatMap
          (projectSessions jp fsys))).take maxSessions

/-! ## Sortedness of the stable descending sort -/

theorem insertDesc_perm (a : ClaudeSession) (l : List ClaudeSession) :
    List.Perm (insertDesc a l) (a :: l) := by
  induction l with
  | nil => exact List.Perm.refl _
  | cons b bs ih =>
    simp only [insertDesc]
    split_ifs
    · exact List.Perm.refl _
    · exact ((ih.cons b).trans (List.Perm.swap a b bs))

theorem mem_insertDesc {x a : ClaudeSession} {l : List ClaudeSession}
    (h : x ∈ insertDesc a l) : x = a ∨ x ∈ l := by
  have := (insertDesc_perm a l).mem_iff.mp h
  simpa using this

theorem pairwise_insertDesc (a : ClaudeSession) (l : List ClaudeSession)
    (h : l.Pairwise fun x y => y.lastActivityTime ≤ x.lastActivityTime) :
    (insertDesc a l).Pairwise fun x y => y.lastActivityTime ≤ x.lastActivityTime := by
  induction l with
  | nil => simp [insertDesc]
  | cons b bs ih =>
    simp only [insertDesc]
    rcases List.pairwise_cons.mp h with ⟨hb, hbs⟩
    split_ifs with hle
    · refine List.pairwise_cons.mpr ⟨?_, h⟩
      intro y hy
      rcases List.mem_cons.mp hy with rfl | hy'
      · exact hle
      · exact Nat.le_trans (hb y hy') hle
    · refine List.pairwise_cons.mpr ⟨?_, ih hbs⟩
      intro y hy
      rcases mem_insertDesc hy with rfl | hy'
      · exact Nat.le_of_lt (Nat.lt_of_not_le hle)
      · exact hb y hy'

theorem pairwise_sortSessionsDesc (l : List ClaudeSession) :
    (sortSessionsDesc l).Pairwise fun x y =>
      y.lastActivityTime ≤ x.lastActivityTime := by
  induction l with
  | nil => simp [sortSessionsDesc]
  | cons x xs ih => exact pairwise_insertDesc x _ ih

/-! ## Claim theorems: `getSessions` -/

/-- C4 (amended): `getSessions` returns at most `maxSessions` sessions,
sorted by *non-increasing* `lastActivityTime` (descending with ties adjacent
in enumeration order — not strictly descending, since distinct files can
share a timestamp). -/
theorem getSessions_le_and_sorted (jp : Str → Option SessionEntry)
    (fsys : List Str) (corpus : Option (List ProjectDir)) (maxSessions : Nat) :
    (getSessions jp fsys corpus maxSessions).length ≤ maxSessions ∧
      (getSessions jp fsys corpus maxSessions).Pairwise fun a b =>
        b.lastActivityTime ≤ a.lastActivityTime := by
  match corpus with
  | none => simp [getSessions]
  | some dirs =>
    refine ⟨List.length_take_le _ _, ?_⟩
    exact (pairwise_sortSessionsDesc _).sublist (List.take_sublist _ _)

/-- The `JSON.parse` oracle and corpus of the tie counterexample: one project
directory with two session files, each two plain user messages and no
timestamps, both files with `mtime = 100`. -/
def tieJp : Str → Option SessionEntry := fun l =>
  if l = str "m1" then
    some { type := str "user",
           message := some { role := str "user", content := .plain (str "hi") } }
  else none

def tieDir : ProjectDir :=
  { name := str "-p",
    files := [
      { name := str "s1.jsonl",
        data := some { content := str "m1\nm1", birthtime := 0, mtime := 100 } },
      { name := str "s2.jsonl",
        data := some { content := str "m1\nm1", birthtime := 0, mtime := 100 } }] }

/-- C4 (counterexample): two sessions with equal `lastActivityTime` are both
returned, so the output is *not* sorted strictly descending by
`lastActivityTime`. -/
theorem getSessions_not_strictly_sorted_cx :
    (getSessions tieJp [] (some [tieDir]) 50).length = 2 ∧
      ¬(getSessions tieJp [] (some [tieDir]) 50).Pairwise
        (fun a b => b.lastActivityTime < a.lastActivityTime) := by
  refine ⟨by decide, by decide⟩

/-- The readable part of a project directory: the files whose read does not
throw. -/
def readablePart (d : ProjectDir) : ProjectDir :=
  { d with files := d.files.filter fun f => f.data.isSome }

theorem filterMap_data_filter {α : Type}
    (g : SessionFile → Option α) (hg : ∀ f, f.data = none → g f = none)
    (files : List SessionFile) :
    (files.filter fun f => f.data.isSome).filterMap g = files.filterMap g := by
  induction files with
  | nil => rfl
  | cons f fs ih =>
    cases hd : f.data with
    | none =>
      rw [List.filter_cons, List.filterMap_cons]
      simp only [hd, Option.isSome_none, Bool.false_eq_true, if_false,
        hg f hd, ih]
    | some fd =>
      rw [List.filter_cons, List.filterMap_cons]
      simp only [hd, Option.isSome_some, if_true, List.filterMap_cons, ih]

theorem projectSessions_readablePart (jp : Str → Option SessionEntry)
    (fsys : List Str) (d : ProjectDir) :
    projectSessions jp fsys (readablePart d) = projectSessions jp fsys d := by
  simp only [projectSessions, sessionFilesOf, readablePart]
  rw [List.filter_comm]
  exact filterMap_data_filter _ (fun f hf => by simp [hf]) _

/-- C9: `getSessions` never surfaces a failure: a missing corpus root yields
the empty list, and dropping every unreadable (throwing) file from every
project directory does not change the result — each such file is skipped
individually while enumeration continues. -/
theorem getSessions_error_recovery (jp : Str → Option SessionEntry)
    (fsys : List Str) (dirs : List ProjectDir) (maxSessions : Nat) :
    getSessions jp fsys none maxSessions = [] ∧
      getSessions jp fsys (some (dirs.map readablePart)) maxSessions =
        getSessions jp fsys (some dirs) maxSessions := by
  refine ⟨rfl, ?_⟩
  simp only [getSessions]
  have key : ((dirs.map readablePart).filter
        fun d => !jsStartsWith (str ".") d.name).flatMap (projectSessions jp fsys)
      = (dirs.filter fun d => !jsStartsWith (str ".") d.name).flatMap
          (projectSessions jp fsys) := by
    induction dirs with
    | nil => rfl
    | cons d ds ih =>
      simp only [List.map_cons, List.filter_cons]
      have hname : (readablePart d).name = d.name := rfl
      rw [hname]
      by_cases hc : (!jsStartsWith (str ".") d.name) = true
      · rw [if_pos hc, if_pos hc, List.flatMap_cons, List.flatMap_cons,
          projectSessions_readablePart, ih]
      · rw [if_neg hc, if_neg hc, ih]
  rw [key]

/-! ## `getSessionMessages` (lines 262–341) -/

structure ToolUse where
  name : Str
  input : List (Str × Str)
deriving DecidableEq

/-- The message record `getSessionMessages` produces.  The source stamps
messages without a timestamp with `new Date()` ("now"); that wall-clock value
is modelled as `none`. -/
structure ClaudeMessage where
  sessionId : Str
  role : Str
  content : Str
  timestamp : Option Nat
  toolUse : Option (List ToolUse)
deriving DecidableEq

/-- `findSessionFile` (lines 292–308): the first non-hidden project directory
containing a file named `sessionId + ".jsonl"` yields that file. -/
def findSessionFile (corpus : Option (List ProjectDir)) (sessionId : Str) :
    Option SessionFile :=
  match corpus with
  | none => none
  | some dirs =>
    (dirs.filter fun d => !jsStartsWith (str ".") d.name).findSome? fun d =>
      d.files.find? fun f => f.name = sessionId ++ str ".jsonl"

/-- `parseMessage` (lines 313–341): flatten `text` blocks (only truthy texts)
into `content`, collect `tool_use` blocks (only truthy names) into `toolUse`,
default the role to `"user"` when falsy. -/
def parseMessage (sessionId : Str) (e : SessionEntry) : ClaudeMessage :=
  let cb : Str × List ToolUse :=
    match e.message with
    | none => ([], [])
    | some m =>
      match m.content with
      | .plain s => (s, [])
      | .blocks bs =>
        bs.foldl (fun acc b =>
          if b.type = str "text" ∧ truthyOptStr b.text then
            (acc.1 ++ b.text.getD [], acc.2)
          else if b.type = str "tool_use" ∧ truthyOptStr b.name then
            (acc.1, acc.2 ++ [{ name := b.name.getD [], input := b.input }])
          else acc) ([], [])
      | .other => ([], [])
  { sessionId := sessionId
    role :=
      match e.message with
      | some m => if m.role ≠ [] then m.role else str "user"
      | none => str "user"
    content := cb.1
    timestamp := e.timestamp
    toolUse := if cb.2.length > 0 then some cb.2 else none }

/-- `getSessionMessages` (lines 262–287): locate the session file by id, read
it (`.error ()` models the uncaught throw of `readFileSync` on an unreadable
file — this call is *not* inside a `try`), and keep the user/assistant
entries that carry a message. -/
def getSessionMessages (jp : Str → Option SessionEntry)
    (corpus : Option (List ProjectDir)) (sessionId : Str) :
    Except Unit (List ClaudeMessage) :=
  match findSessionFile corpus sessionId with
  | none => .ok []
  | some f =>
    match f.data with
    | none => .error ()
    | some fd =>
      .ok ((linesOf fd.content).filterMap fun line =>
        match jp line with
        | none => none
        | some e =>
          if (e.type = str "user" ∨ e.type = str "assistant") ∧ e.message.isSome
          then some (parseMessage sessionId e)
          else none)

/-! ## `searchTranscripts` (lines 346–378) -/

/-- The context window around the first match (lines 357–362):
`idx = content.toLowerCase().indexOf(queryLower)` (the `getD 0` is unreachable
under the `includes` guard), `start = max(0, idx - 50)` (which is `Nat`
subtraction), `end = min(content.length, idx + query.length + 50)`, with
`...` markers exactly when the window is clipped. -/
def mkMatchContext (content query : Str) : Str :=
  let idx := (jsIndexOf (jsToLower query) (jsToLower content)).getD 0
  let start := idx - 50
  let stop := min content.length (idx + query.length + 50)
  (if start > 0 then str "..." else []) ++
    (content.drop start).take (stop - start) ++
    (if stop < content.length then str "..." else [])

structure SearchHit where
  session : ClaudeSession
  message : ClaudeMessage
  matchContext : Str
deriving DecidableEq

def mkHit (s : ClaudeSession) (m : ClaudeMessage) (query : Str) : SearchHit :=
  { session := s, message := m, matchContext := mkMatchContext m.content query }

/-- The inner message loop of `searchTranscripts` (lines 354–374): push a hit
for every matching message, returning early (second component `true`) once
`results.length >= maxResults` — a check made *after* the push. -/
def searchMsgs (query queryLower : Str) (maxResults : Nat) (s : ClaudeSession) :
    List ClaudeMessage → List SearchHit → List SearchHit × Bool
  | [], acc => (acc, false)
  | m :: ms, acc =>
    if jsIncludes queryLower (jsToLower m.content) then
      if maxResults ≤ (acc ++ [mkHit s m query]).length then
        (acc ++ [mkHit s m query], true)
      else searchMsgs query queryLower maxResults s ms (acc ++ [mkHit s m query])
    else searchMsgs query queryLower maxResults s ms acc

/-- The outer session loop of `searchTranscripts` (lines 351–375): the
`await getSessionMessages` is not guarded, so a throwing read propagates. -/
def searchGo (jp : Str → Option SessionEntry) (corpus : Option (List ProjectDir))
    (query queryLower : Str) (maxResults : Nat) :
    List ClaudeSession → List SearchHit → Except Unit (List SearchHit)
  | [], acc => .ok acc
  | s :: rest, acc =>
    match getSessionMessages jp corpus s.id with
    | .error e => .error e
    | .ok msgs =>
      match searchMsgs query queryLower maxResults s msgs acc with
      | (acc', true) => .ok acc'
      | (acc', false) => searchGo jp corpus query queryLower maxResults rest acc'

/-- `searchTranscripts(query, maxResults)` (lines 346–378): scan the 200
most-recent sessions in order. -/
def searchTranscripts (jp : Str → Option SessionEntry) (fsys : List Str)
    (corpus : Option (List ProjectDir)) (query : Str) (maxResults : Nat) :
    Except Unit (List SearchHit) :=
  searchGo jp corpus query (jsToLower query) maxResults
    (getSessions jp fsys corpus 200) []

/-- The hits one session contributes, in file order (the specification-side
view of the inner loop without the cap). -/
def sessionHits (query queryLower : Str) (s : ClaudeSession)
    (msgs : List ClaudeMessage) : List SearchHit :=
  msgs.filterMap fun m =>
    if jsIncludes queryLower (jsToLower m.content) then some (mkHit s m query)
    else none

/-- The messages of a session as the search loop sees them (defined only on
sessions whose read succeeds; `[]` on a throwing read). -/
def msgsOf (jp : Str → Option SessionEntry) (corpus : Option (List ProjectDir))
    (s : ClaudeSession) : List ClaudeMessage :=
  match getSessionMessages jp corpus s.id with
  | .ok msgs => msgs
  | .error _ => []

/-! ## Search loop lemmas -/

theorem searchMsgs_spec (query queryLower : Str) (k : Nat) (s : ClaudeSession) :
    ∀ (msgs : List ClaudeMessage) (acc : List SearchHit), acc.length < k →
      ((searchMsgs query queryLower k s msgs acc).2 = false →
        (searchMsgs query queryLower k s msgs acc).1 =
            acc ++ sessionHits query queryLower s msgs ∧
          (searchMsgs query queryLower k s msgs acc).1.length < k) ∧
      ((searchMsgs query queryLower k s msgs acc).2 = true →
        (searchMsgs query queryLower k s msgs acc).1.length = k ∧
          (searchMsgs query queryLower k s msgs acc).1 =
            (acc ++ sessionHits query queryLower s msgs).take k) := by
  intro msgs
  induction msgs with
  | nil =>
    intro acc hacc
    refine ⟨fun _ => ⟨by simp [searchMsgs, sessionHits], by simpa [searchMsgs]⟩,
      fun hfalse => ?_⟩
    simp [searchMsgs] at hfalse
  | cons m ms ih =>
    intro acc hacc
    by_cases hinc : jsIncludes queryLower (jsToLower m.content) = true
    · have hsh : sessionHits query queryLower s (m :: ms) =
          mkHit s m query :: sessionHits query queryLower s ms := by
        simp [sessionHits, hinc]
      by_cases hstop : k ≤ (acc ++ [mkHit s m query]).length
      · have heq : searchMsgs query queryLower k s (m :: ms) acc =
            (acc ++ [mkHit s m query], true) := by
          simp only [searchMsgs]
          rw [if_pos hinc, if_pos hstop]
        have hklen : (acc ++ [mkHit s m query]).length = k := by
          simp only [List.length_append, List.length_cons, List.length_nil] at hstop ⊢
          omega
        refine ⟨fun hf => ?_, fun _ => ⟨by simp [heq, hklen], ?_⟩⟩
        · rw [heq] at hf
          simp at hf
        · rw [heq, hsh]
          have : acc ++ mkHit s m query :: sessionHits query queryLower s ms =
              (acc ++ [mkHit s m query]) ++ sessionHits query queryLower s ms := by
            simp
          rw [this, ← hklen, List.take_left]
      · have hlt : (acc ++ [mkHit s m query]).length < k := Nat.lt_of_not_le hstop
        have heq : searchMsgs query queryLower k s (m :: ms) acc =
            searchMsgs query queryLower k s ms (acc ++ [mkHit s m query]) := by
          simp only [searchMsgs]
          rw [if_pos hinc, if_neg hstop]
        have hassoc : (acc ++ [mkHit s m query]) ++ sessionHits query queryLower s ms
            = acc ++ sessionHits query queryLower s (m :: ms) := by
          rw [hsh]; simp
        rcases ih (acc ++ [mkHit s m query]) hlt with ⟨hfal, htru⟩
        refine ⟨fun hf => ?_, fun ht => ?_⟩
        · rw [heq] at hf ⊢
          rcases hfal hf with ⟨h₁, h₂⟩
          exact ⟨by rw [h₁, hassoc], h₂⟩
        · rw [heq] at ht ⊢
          rcases htru ht with ⟨h₁, h₂⟩
          exact ⟨h₁, by rw [h₂, hassoc]⟩
    · have hinc' : jsIncludes queryLower (jsToLower m.content) = false := by
        simpa using hinc
      have hsh : sessionHits query queryLower s (m :: ms) =
          sessionHits query queryLower s ms := by
        simp [sessionHits, hinc']
      have heq : searchMsgs query queryLower k s (m :: ms) acc =
          searchMsgs query queryLower k s ms acc := by
        simp [searchMsgs, hinc']
      rw [heq, hsh]
      exact ih acc hacc

theorem searchGo_spec (jp : Str → Option SessionEntry)
    (corpus : Option (List ProjectDir)) (query queryLower : Str) (k : Nat) :
    ∀ (sessions : List ClaudeSession) (acc hits : List SearchHit),
      acc.length < k →
      searchGo jp corpus query queryLower k sessions acc = .ok hits →
      ∃ n ≤ sessions.length,
        (∀ s ∈ sessions.take n, (getSessionMessages jp corpus s.id).isOk) ∧
        hits = (acc ++ (sessions.take n).flatMap
            fun s => sessionHits query queryLower s (msgsOf jp corpus s)).take k := by
  intro sessions
  induction sessions with
  | nil =>
    intro acc hits hacc hok
    refine ⟨0, by simp, by simp, ?_⟩
    simp only [searchGo, Except.ok.injEq] at hok
    rw [← hok]
    simp [List.take_of_length_le (Nat.le_of_lt hacc)]
  | cons s rest ih =>
    intro acc hits hacc hok
    cases hmsg : getSessionMessages jp corpus s.id with
    | error e => simp [searchGo, hmsg] at hok
    | ok msgs =>
      have hmo : msgsOf jp corpus s = msgs := by simp [msgsOf, hmsg]
      rcases hms : searchMsgs query queryLower k s msgs acc with ⟨acc', b⟩
      rcases searchMsgs_spec query queryLower k s msgs acc hacc with ⟨hfal, htru⟩
      simp only [hms] at hfal htru
      cases b with
      | true =>
        simp only [searchGo, hmsg, hms, Except.ok.injEq] at hok
        rcases htru rfl with ⟨hlen, hval⟩
        refine ⟨1, by simp, ?_, ?_⟩
        · intro t ht
          simp only [List.take_succ_cons, List.take_zero] at ht
          rcases List.mem_singleton.mp ht with rfl
          simp [hmsg, Except.isOk, Except.toBool]
        · rw [← hok, hval]
          simp [hmo]
      | false =>
        simp only [searchGo, hmsg, hms] at hok
        rcases hfal rfl with ⟨hval, hlen⟩
        rcases ih acc' hits hlen hok with ⟨n, hn, hoks, hhits⟩
        refine ⟨n + 1, by simpa using hn, ?_, ?_⟩
        · intro t ht
          simp only [List.take_succ_cons, List.mem_cons] at ht
          rcases ht with rfl | ht'
          · simp [hmsg, Except.isOk, Except.toBool]
          · exact hoks t ht'
        · rw [hhits, hval]
          simp [hmo, List.take_succ_cons]

theorem pairwise_of_forall_mem {α : Type} {R : α → α → Prop} :
    ∀ {l : List α}, (∀ x ∈ l, ∀ y ∈ l, R x y) → l.Pairwise R
  | [], _ => List.Pairwise.nil
  | a :: t, h =>
    List.Pairwise.cons (fun y hy => h a (by simp) y (by simp [hy]))
      (pairwise_of_forall_mem fun x hx y hy =>
        h x (by simp [hx]) y (by simp [hy]))

theorem mem_sessionHits_session {query queryLower : Str} {s : ClaudeSession}
    {msgs : List ClaudeMessage} {h : SearchHit}
    (hmem : h ∈ sessionHits query queryLower s msgs) :
    h.session = s ∧ ∃ m ∈ msgs, h = mkHit s m query := by
  rcases List.mem_filterMap.mp hmem with ⟨m, hm, hsome⟩
  by_cases hinc : jsIncludes queryLower (jsToLower m.content) = true
  · rw [if_pos hinc] at hsome
    cases hsome
    exact ⟨rfl, m, hm, rfl⟩
  · rw [if_neg hinc] at hsome
    cases hsome

theorem pairwise_flatMap_hits (sessions : List ClaudeSession)
    (f : ClaudeSession → List SearchHit)
    (hf : ∀ s h, h ∈ f s → h.session = s)
    (hs : sessions.Pairwise fun a b => b.lastActivityTime ≤ a.lastActivityTime) :
    (sessions.flatMap f).Pairwise fun h₁ h₂ =>
      h₂.session.lastActivityTime ≤ h₁.session.lastActivityTime := by
  induction sessions with
  | nil => simp
  | cons s rest ih =>
    rcases List.pairwise_cons.mp hs with ⟨hhead, htail⟩
    rw [List.flatMap_cons]
    rw [List.pairwise_append]
    refine ⟨?_, ih htail, ?_⟩
    · refine pairwise_of_forall_mem fun x hx y hy => ?_
      rw [hf s x hx, hf s y hy]
    · intro x hx y hy
      rcases List.mem_flatMap.mp hy with ⟨t, htr, hyt⟩
      rw [hf s x hx, hf t y hyt]
      exact hhead t htr

/-! ## Claim theorems: `searchTranscripts` -/

/-- C6 (amended): for every cap `maxResults ≥ 1`, a successful
`searchTranscripts` returns at most `maxResults` hits; the hits preserve
session recency order (non-increasing `lastActivityTime`); and the result is
exactly the cap-truncated prefix of the in-order concatenation of per-session
per-message hits (messages in file order, no re-ranking), over a prefix of
the scanned sessions.  (For `maxResults = 0` the code still returns the first
hit, because the cap is checked only after a push.) -/
theorem searchTranscripts_spec (jp : Str → Option SessionEntry) (fsys : List Str)
    (corpus : Option (List ProjectDir)) (query : Str) (k : Nat)
    (hits : List SearchHit) (hk : 1 ≤ k)
    (hok : searchTranscripts jp fsys corpus query k = .ok hits) :
    hits.length ≤ k ∧
      hits.Pairwise (fun h₁ h₂ =>
        h₂.session.lastActivityTime ≤ h₁.session.lastActivityTime) ∧
      ∃ n, (∀ s ∈ (getSessions jp fsys corpus 200).take n,
          (getSessionMessages jp corpus s.id).isOk) ∧
        hits = (((getSessions jp fsys corpus 200).take n).flatMap
            fun s => sessionHits query (jsToLower query) s (msgsOf jp corpus s)).take k := by
  have hok' : searchGo jp corpus query (jsToLower query) k
      (getSessions jp fsys corpus 200) [] = .ok hits := hok
  have h0 : ([] : List SearchHit).length < k := by simpa using hk
  rcases searchGo_spec jp corpus query (jsToLower query) k
      (getSessions jp fsys corpus 200) [] hits h0 hok' with ⟨n, -, hoks, hhits⟩
  simp only [List.nil_append] at hhits
  have hsorted : ((getSessions jp fsys corpus 200).take n).Pairwise
      fun a b => b.lastActivityTime ≤ a.lastActivityTime :=
    List.Pairwise.sublist (List.take_sublist n _)
      (getSessions_le_and_sorted jp fsys corpus 200).2
  refine ⟨?_, ?_, n, hoks, hhits⟩
  · rw [hhits]
    exact List.length_take_le _ _
  · rw [hhits]
    refine List.Pairwise.sublist (List.take_sublist k _) ?_
    exact pairwise_flatMap_hits _ _
      (fun s h hm => (mem_sessionHits_session hm).1) hsorted

/-- One project directory with a single readable session file carrying two
user messages `"hi"`. -/
def oneDir : ProjectDir :=
  { name := str "-p",
    files := [
      { name := str "s1.jsonl",
        data := some { content := str "m1\nm1", birthtime := 0, mtime := 100 } }] }

/-- C6 (counterexample): with `maxResults = 0`, `searchTranscripts` still
returns one hit (the cap is checked only after the first push), so "at most
`k` hits for every cap `k`" fails at `k = 0`. -/
theorem searchTranscripts_cap_zero_cx :
    (searchTranscripts tieJp [] (some [oneDir]) (str "hi") 0).map List.length =
        Except.ok 1 ∧
      ¬(1 ≤ (0 : Nat)) := by
  exact ⟨rfl, by decide⟩

/-- The hit list of the concrete cap-3 search used as C6's witness input. -/
def searchHitsW : List SearchHit :=
  (searchTranscripts tieJp [] (some [oneDir]) (str "hi") 3).toOption.getD []

/-- C6 (witness): the spec applied at a concrete corpus with cap 3. -/
theorem searchTranscripts_spec_witness :
    searchHitsW.length ≤ 3 ∧
      searchHitsW.Pairwise (fun h₁ h₂ =>
        h₂.session.lastActivityTime ≤ h₁.session.lastActivityTime) ∧
      ∃ n, (∀ s ∈ (getSessions tieJp [] (some [oneDir]) 200).take n,
          (getSessionMessages tieJp (some [oneDir]) s.id).isOk) ∧
        searchHitsW = (((getSessions tieJp [] (some [oneDir]) 200).take n).flatMap
            fun s => sessionHits (str "hi") (jsToLower (str "hi")) s
              (msgsOf tieJp (some [oneDir]) s)).take 3 :=
  searchTranscripts_spec tieJp [] (some [oneDir]) (str "hi") 3 searchHitsW
    (by decide) rfl

/-! ## The first-occurrence index and the context window (C7) -/

theorem jsIndexOf_spec (needle : Str) :
    ∀ (hay : Str) (i : Nat), jsIndexOf needle hay = some i →
      needle.isPrefixOf (hay.drop i) = true ∧
        ∀ j < i, needle.isPrefixOf (hay.drop j) = false := by
  intro hay
  induction hay with
  | nil =>
    intro i h
    simp only [jsIndexOf] at h
    cases hp : needle.isPrefixOf ([] : Str) with
    | true =>
      rw [if_pos hp] at h
      cases h
      exact ⟨hp, fun j hj => absurd hj (Nat.not_lt_zero j)⟩
    | false => rw [if_neg (by simp [hp])] at h; cases h
  | cons c t ih =>
    intro i h
    simp only [jsIndexOf] at h
    cases hp : needle.isPrefixOf (c :: t) with
    | true =>
      rw [if_pos hp] at h
      cases h
      exact ⟨hp, fun j hj => absurd hj (Nat.not_lt_zero j)⟩
    | false =>
      rw [if_neg (by simp [hp])] at h
      rcases Option.map_eq_some'.mp h with ⟨i', hi', rfl⟩
      rcases ih i' hi' with ⟨hpre, hleast⟩
      refine ⟨hpre, fun j hj => ?_⟩
      cases j with
      | zero => simpa using hp
      | succ j' => exact hleast j' (Nat.lt_of_succ_lt_succ hj)

theorem searchMsgs_mem_hit (query queryLower : Str) (k : Nat) (s : ClaudeSession) :
    ∀ (msgs : List ClaudeMessage) (acc : List SearchHit) (h : SearchHit),
      h ∈ (searchMsgs query queryLower k s msgs acc).1 →
      h ∈ acc ∨ ∃ m ∈ msgs, h = mkHit s m query := by
  intro msgs
  induction msgs with
  | nil =>
    intro acc h hm
    exact Or.inl (by simpa [searchMsgs] using hm)
  | cons m ms ih =>
    intro acc h hm
    by_cases hinc : jsIncludes queryLower (jsToLower m.content) = true
    · by_cases hstop : k ≤ (acc ++ [mkHit s m query]).length
      · have heq : searchMsgs query queryLower k s (m :: ms) acc =
            (acc ++ [mkHit s m query], true) := by
          simp only [searchMsgs]
          rw [if_pos hinc, if_pos hstop]
        rw [heq] at hm
        rcases List.mem_append.mp hm with hma | hmb
        · exact Or.inl hma
        · exact Or.inr ⟨m, by simp, List.mem_singleton.mp hmb⟩
      · have heq : searchMsgs query queryLower k s (m :: ms) acc =
            searchMsgs query queryLower k s ms (acc ++ [mkHit s m query]) := by
          simp only [searchMsgs]
          rw [if_pos hinc, if_neg hstop]
        rw [heq] at hm
        rcases ih (acc ++ [mkHit s m query]) h hm with hma | ⟨m', hm', rfl⟩
        · rcases List.mem_append.mp hma with h₁ | h₂
          · exact Or.inl h₁
          · exact Or.inr ⟨m, by simp, List.mem_singleton.mp h₂⟩
        · exact Or.inr ⟨m', by simp [hm'], rfl⟩
    · have hinc' : jsIncludes queryLower (jsToLower m.content) = false := by
        simpa using hinc
      have heq : searchMsgs query queryLower k s (m :: ms) acc =
          searchMsgs query queryLower k s ms acc := by
        simp [searchMsgs, hinc']
      rw [heq] at hm
      rcases ih acc h hm with hma | ⟨m', hm', rfl⟩
      · exact Or.inl hma
      · exact Or.inr ⟨m', by simp [hm'], rfl⟩

theorem searchGo_mem_hit (jp : Str → Option SessionEntry)
    (corpus : Option (List ProjectDir)) (query queryLower : Str) (k : Nat) :
    ∀ (sessions : List ClaudeSession) (acc hits : List SearchHit) (h : SearchHit),
      searchGo jp corpus query queryLower k sessions acc = .ok hits →
      h ∈ hits → h ∈ acc ∨ ∃ s m, h = mkHit s m query := by
  intro sessions
  induction sessions with
  | nil =>
    intro acc hits h hok hm
    simp only [searchGo, Except.ok.injEq] at hok
    exact Or.inl (hok ▸ hm)
  | cons s rest ih =>
    intro acc hits h hok hm
    cases hmsg : getSessionMessages jp corpus s.id with
    | error e => simp [searchGo, hmsg] at hok
    | ok msgs =>
      rcases hms : searchMsgs query queryLower k s msgs acc with ⟨acc', b⟩
      cases b with
      | true =>
        simp only [searchGo, hmsg, hms, Except.ok.injEq] at hok
        have : h ∈ (searchMsgs query queryLower k s msgs acc).1 := by
          rw [hms]; exact hok ▸ hm
        rcases searchMsgs_mem_hit query queryLower k s msgs acc h this with
          hma | ⟨m, -, rfl⟩
        · exact Or.inl hma
        · exact Or.inr ⟨s, m, rfl⟩
      | false =>
        simp only [searchGo, hmsg, hms] at hok
        rcases ih acc' hits h hok hm with hma | hex
        · have : h ∈ (searchMsgs query queryLower k s msgs acc).1 := by
            rw [hms]; exact hma
          rcases searchMsgs_mem_hit query queryLower k s msgs acc h this with
            hmb | ⟨m, -, rfl⟩
          · exact Or.inl hmb
          · exact Or.inr ⟨s, m, rfl⟩
        · exact Or.inr hex

/-- C7: (i) every hit `searchTranscripts` emits carries
`matchContext = mkMatchContext content query`; (ii) that context is exactly
the substring of the message content from `max(0, i-50)` to
`min(length, i + |query| + 50)` — `i` the *least* index at which the
lowercased query occurs in the lowercased content — with `...` prepended
exactly when the window start is clipped above 0 and appended exactly when
the window end is clipped below the content length. -/
theorem searchTranscripts_context_window :
    (∀ (jp : Str → Option SessionEntry) (fsys : List Str)
        (corpus : Option (List ProjectDir)) (query : Str) (k : Nat)
        (hits : List SearchHit) (h : SearchHit),
        searchTranscripts jp fsys corpus query k = .ok hits → h ∈ hits →
        h.matchContext = mkMatchContext h.message.content query) ∧
    ∀ (content query : Str),
      jsIncludes (jsToLower query) (jsToLower content) = true →
      ∃ i, jsIndexOf (jsToLower query) (jsToLower content) = some i ∧
        (jsToLower query).isPrefixOf ((jsToLower content).drop i) = true ∧
        (∀ j < i, (jsToLower query).isPrefixOf ((jsToLower content).drop j) = false) ∧
        mkMatchContext content query =
          (if 0 < i - 50 then str "..." else []) ++
            (content.drop (i - 50)).take
              (min content.length (i + query.length + 50) - (i - 50)) ++
            (if min content.length (i + query.length + 50) < content.length then
              str "..." else []) := by
  constructor
  · intro jp fsys corpus query k hits h hok hm
    have hok' : searchGo jp corpus query (jsToLower query) k
        (getSessions jp fsys corpus 200) [] = .ok hits := hok
    rcases searchGo_mem_hit jp corpus query (jsToLower query) k
        (getSessions jp fsys corpus 200) [] hits h hok' hm with hma | ⟨s, m, rfl⟩
    · simp at hma
    · rfl
  · intro content query hinc
    rcases Option.isSome_iff_exists.mp hinc with ⟨i, hi⟩
    rcases jsIndexOf_spec _ _ _ hi with ⟨hpre, hleast⟩
    refine ⟨i, hi, hpre, hleast, ?_⟩
    simp only [mkMatchContext, hi, Option.getD_some]

/-- C7 (witness): the window formula at the concrete content `"abcdef"` and
query `"CD"` (case-insensitive match at least index 2). -/
theorem searchTranscripts_context_window_witness :
    ∃ i, jsIndexOf (jsToLower (str "CD")) (jsToLower (str "abcdef")) = some i ∧
      (jsToLower (str "CD")).isPrefixOf ((jsToLower (str "abcdef")).drop i) = true ∧
      (∀ j < i, (jsToLower (str "CD")).isPrefixOf
        ((jsToLower (str "abcdef")).drop j) = false) ∧
      mkMatchContext (str "abcdef") (str "CD") =
        (if 0 < i - 50 then str "..." else []) ++
          ((str "abcdef").drop (i - 50)).take
            (min (str "abcdef").length (i + (str "CD").length + 50) - (i - 50)) ++
          (if min (str "abcdef").length (i + (str "CD").length + 50) <
              (str "abcdef").length then str "..." else []) :=
  searchTranscripts_context_window.2 (str "abcdef") (str "CD") (by decide)

/-! ## The empty query (C10) -/

theorem jsIndexOf_nil_needle (hay : Str) : jsIndexOf [] hay = some 0 := by
  cases hay <;> rfl

theorem jsIncludes_nil_needle (hay : Str) : jsIncludes [] hay = true := by
  simp [jsIncludes, jsIndexOf_nil_needle]

theorem filterMap_some_eq_map {α β : Type} (f : α → β) :
    ∀ l : List α, l.filterMap (fun a => some (f a)) = l.map f := by
  intro l
  induction l with
  | nil => rfl
  | cons a t ih => simp [List.filterMap_cons, ih]

/-- With the empty query every message matches, so the per-session hit list
is one hit per message, in file order. -/
theorem sessionHits_nil_query (s : ClaudeSession) (msgs : List ClaudeMessage) :
    sessionHits [] [] s msgs = msgs.map fun m => mkHit s m [] := by
  simp only [sessionHits, jsIncludes_nil_needle, if_true]
  exact filterMap_some_eq_map _ _

theorem take_min_length (l : Str) (n : Nat) : l.take (min l.length n) = l.take n := by
  rcases Nat.le_total l.length n with h | h
  · rw [Nat.min_eq_left h, List.take_length, List.take_of_length_le h]
  · rw [Nat.min_eq_right h]

/-- The empty-query context window: the first `min(50, length)` characters,
with `...` appended exactly when the content is longer than 50. -/
theorem mkMatchContext_nil_query (content : Str) :
    mkMatchContext content [] =
      content.take 50 ++ (if 50 < content.length then str "..." else []) := by
  simp only [mkMatchContext, jsToLower, List.map_nil, jsIndexOf_nil_needle,
    Option.getD_some, List.length_nil]
  have h0 : (0 : Nat) - 50 = 0 := rfl
  rw [h0]
  simp only [Nat.lt_irrefl, if_false, List.drop_zero, Nat.sub_zero,
    Nat.zero_add, Nat.add_zero]
  rw [take_min_length]
  simp only [List.nil_append]
  by_cases h50 : 50 < content.length
  · rw [if_pos (by omega : min content.length 50 < content.length), if_pos h50]
  · rw [if_neg (by omega : ¬min content.length 50 < content.length), if_neg h50]

/-- C10 (amended): for every cap `maxResults ≥ 1`, a successful
`searchTranscripts` on the empty query matches every message of every scanned
session (the empty needle occurs at index 0 of every string): the result is
the cap-truncated concatenation, in session-recency then file order, of one
hit per message, each with context equal to the first `min(50, length)`
characters of the message content, with `...` appended exactly when clipped.
The empty query is neither rejected nor special-cased.  (As with C6, at
`maxResults = 0` the first match is still returned.) -/
theorem searchTranscripts_empty_query (jp : Str → Option SessionEntry)
    (fsys : List Str) (corpus : Option (List ProjectDir)) (k : Nat)
    (hits : List SearchHit) (hk : 1 ≤ k)
    (hok : searchTranscripts jp fsys corpus [] k = .ok hits) :
    hits.length ≤ k ∧
      (∃ n, (∀ s ∈ (getSessions jp fsys corpus 200).take n,
          (getSessionMessages jp corpus s.id).isOk) ∧
        hits = (((getSessions jp fsys corpus 200).take n).flatMap
            fun s => (msgsOf jp corpus s).map fun m => mkHit s m []).take k) ∧
      ∀ h ∈ hits, h.matchContext =
        h.message.content.take 50 ++
          (if 50 < h.message.content.length then str "..." else []) := by
  rcases searchTranscripts_spec jp fsys corpus [] k hits hk hok with
    ⟨hlen, -, n, hoks, hhits⟩
  have hql : jsToLower ([] : Str) = [] := rfl
  rw [hql] at hhits
  simp only [sessionHits_nil_query] at hhits
  refine ⟨hlen, ⟨n, hoks, hhits⟩, ?_⟩
  intro h hm
  rw [hhits] at hm
  have hm' := List.mem_of_mem_take hm
  rcases List.mem_flatMap.mp hm' with ⟨s, -, hms⟩
  rcases List.mem_map.mp hms with ⟨m, -, rfl⟩
  show mkMatchContext m.content [] = _
  exact mkMatchContext_nil_query m.content

/-- C10 (counterexample): with `maxResults = 0` and the empty query, one hit
is still returned, so "one hit per message up to `maxResults`" fails at
cap 0. -/
theorem searchTranscripts_empty_query_cap_zero_cx :
    (searchTranscripts tieJp [] (some [oneDir]) [] 0).map List.length =
        Except.ok 1 ∧
      ¬(1 ≤ (0 : Nat)) := by
  exact ⟨rfl, by decide⟩

/-- The hit list of the concrete cap-3 empty-query search used as C10's
witness input. -/
def emptyQueryHitsW : List SearchHit :=
  (searchTranscripts tieJp [] (some [oneDir]) [] 3).toOption.getD []

/-- C10 (witness): the empty-query spec applied at a concrete corpus with
cap 3. -/
theorem searchTranscripts_empty_query_witness :
    emptyQueryHitsW.length ≤ 3 ∧
      (∃ n, (∀ s ∈ (getSessions tieJp [] (some [oneDir]) 200).take n,
          (getSessionMessages tieJp (some [oneDir]) s.id).isOk) ∧
        emptyQueryHitsW = (((getSessions tieJp [] (some [oneDir]) 200).take n).flatMap
            fun s => (msgsOf tieJp (some [oneDir]) s).map fun m => mkHit s m []).take 3) ∧
      ∀ h ∈ emptyQueryHitsW, h.matchContext =
        h.message.content.take 50 ++
          (if 50 < h.message.content.length then str "..." else []) :=
  searchTranscripts_empty_query tieJp [] (some [oneDir]) 3 emptyQueryHitsW
    (by decide) rfl

/-! ## Namer: `extractTaskFocus` (lines 415–487) -/

/-- The self-improvement keyword set (lines 421–424). -/
def selfImprovementKeywords : List Str :=
  [str "self-improvement", str "metacognition", str "agent capabilities",
   str "skill", str "learning", str "claude.md", str "workflow"]

/-- The cross-project/management keyword set (lines 430–433). -/
def globalKeywords : List Str :=
  [str "cross-project", str "management", str "organization", str "cleanup",
   str "session", str "infrastructure", str "backlog"]

/-- The known-project keyword table (lines 439–469), in the object literal's
insertion order — the order `Object.entries` iterates. -/
def knownProjects : List (Str × Str) :=
  [(str "corpus-search", str "corpus-search"),
   (str "corpus search", str "corpus-search"),
   (str "jhu", str "JHU-hiring"),
   (str "hiring", str "JHU-hiring"),
   (str "thompson", str "JHU-hiring"),
   (str "blame", str "blame-theo"),
   (str "kira", str "agent-kira"),
   (str "privacy", str "agent-kira"),
   (str "claims", str "claims-secil"),
   (str "compliant", str "compliant-cameron"),
   (str "deceptive", str "deceptive-iman"),
   (str "egonormous", str "egonormous-sichao"),
   (str "morebench", str "even-more-bench-CY"),
   (str "iaseai", str "IASEAI"),
   (str "workshop", str "IASEAI"),
   (str "notion", str "notion-automation"),
   (str "drone", str "drone-import"),
   (str "dji", str "drone-import"),
   (str "flight log", str "drone-import"),
   (str "email", str "email-archive"),
   (str "gmail", str "email-archive"),
   (str "slack", str "slack-integration"),
   (str "news", str "news-summary"),
   (str "session manager", str "claude-session-manager"),
   (str "extension", str "claude-session-manager"),
   (str "vscode", str "claude-session-manager"),
   (str "cursor", str "claude-session-manager"),
   (str "slash command", str "Global"),
   (str "frontmatter", str "Global")]

/-- The colon-prefix match (line 478): the regex anchored at the start,
capturing one-or-more non-colon characters followed by a colon — i.e. the
(non-empty) run before the first colon, provided a colon follows it. -/
def colonPrefix (s : Str) : Option Str :=
  let before := s.takeWhile (· ≠ ':')
  if before ≠ [] ∧ before.length < s.length then some before else none

/-- `extractTaskFocus` (lines 415–487): the five ordered passes.  The guard
`if (!summary)` is JS-falsy, so the empty string also yields `"Session"`. -/
def extractTaskFocus (summary : Option Str) : Str :=
  match summary with
  | none => str "Session"
  | some summary =>
    if summary = [] then str "Session"
    else if selfImprovementKeywords.any
        (fun kw => jsIncludes kw (jsToLower summary)) then
      str "Self-improvement"
    else if globalKeywords.any (fun kw => jsIncludes kw (jsToLower summary)) then
      str "Global"
    else
      match knownProjects.find? (fun kv => jsIncludes kv.1 (jsToLower summary)) with
      | some kv => kv.2
      | none =>
        match colonPrefix summary with
        | some before =>
          if (jsTrim before).length ≤ 30 ∧ 3 ≤ (jsTrim before).length then
            jsTrim before
          else str "Session"
        | none => str "Session"

/-- C5: `extractTaskFocus` follows the five ordered passes over the lowercased
summary — self-improvement keywords, then global/management keywords, then the
known-project table in iteration order (first match wins), then the
colon-prefix fallback for a trimmed prefix of length 3 to 30, then the
default `"Session"` — and on the claim's three concrete inputs returns
`"Session"`, `"Global"` and `"corpus-search"` respectively. -/
theorem extractTaskFocus_passes :
    extractTaskFocus none = str "Session" ∧
    extractTaskFocus (some (str "Quick cleanup of session backlog")) =
      str "Global" ∧
    extractTaskFocus (some (str "Debugging corpus search ranking")) =
      str "corpus-search" ∧
    (∀ s : Str, s ≠ [] →
      selfImprovementKeywords.any (fun kw => jsIncludes kw (jsToLower s)) = true →
      extractTaskFocus (some s) = str "Self-improvement") ∧
    (∀ s : Str, s ≠ [] →
      selfImprovementKeywords.any (fun kw => jsIncludes kw (jsToLower s)) = false →
      globalKeywords.any (fun kw => jsIncludes kw (jsToLower s)) = true →
      extractTaskFocus (some s) = str "Global") ∧
    (∀ (s : Str) (kv : Str × Str), s ≠ [] →
      selfImprovementKeywords.any (fun kw => jsIncludes kw (jsToLower s)) = false →
      globalKeywords.any (fun kw => jsIncludes kw (jsToLower s)) = false →
      knownProjects.find? (fun kv => jsIncludes kv.1 (jsToLower s)) = some kv →
      extractTaskFocus (some s) = kv.2) ∧
    (∀ (s b : Str), s ≠ [] →
      selfImprovementKeywords.any (fun kw => jsIncludes kw (jsToLower s)) = false →
      globalKeywords.any (fun kw => jsIncludes kw (jsToLower s)) = false →
      knownProjects.find? (fun kv => jsIncludes kv.1 (jsToLower s)) = none →
      colonPrefix s = some b →
      3 ≤ (jsTrim b).length → (jsTrim b).length ≤ 30 →
      extractTaskFocus (some s) = jsTrim b) ∧
    (∀ s : Str, s ≠ [] →
      selfImprovementKeywords.any (fun kw => jsIncludes kw (jsToLower s)) = false →
      globalKeywords.any (fun kw => jsIncludes kw (jsToLower s)) = false →
      knownProjects.find? (fun kv => jsIncludes kv.1 (jsToLower s)) = none →
      (∀ b : Str, colonPrefix s = some b →
        (jsTrim b).length < 3 ∨ 30 < (jsTrim b).length) →
      extractTaskFocus (some s) = str "Session") := by
  refine ⟨rfl, by decide, by decide, ?_, ?_, ?_, ?_, ?_⟩
  · intro s hs hself
    simp [extractTaskFocus, hs, hself]
  · intro s hs hself hglob
    simp [extractTaskFocus, hs, hself, hglob]
  · intro s kv hs hself hglob hfind
    simp [extractTaskFocus, hs, hself, hglob, hfind]
  · intro s b hs hself hglob hfind hcolon h3 h30
    simp [extractTaskFocus, hs, hself, hglob, hfind, hcolon, h3, h30]
  · intro s hs hself hglob hfind hcolon
    cases hc : colonPrefix s with
    | none => simp [extractTaskFocus, hs, hself, hglob, hfind, hc]
    | some b =>
      have := hcolon b hc
      have hnot : ¬((jsTrim b).length ≤ 30 ∧ 3 ≤ (jsTrim b).length) := by omega
      simp [extractTaskFocus, hs, hself, hglob, hfind, hc, hnot]

/-- C5 (witness): the self-improvement pass applied at a concrete summary
containing the keyword `skill`. -/
theorem extractTaskFocus_passes_witness :
    (str "new skill drills" ≠ ([] : Str)) ∧
      selfImprovementKeywords.any
        (fun kw => jsIncludes kw (jsToLower (str "new skill drills"))) = true ∧
      extractTaskFocus (some (str "new skill drills")) = str "Self-improvement" :=
  ⟨by decide, by decide,
    extractTaskFocus_passes.2.2.2.1 (str "new skill drills") (by decide) (by decide)⟩

end SessionMgr
